import Mathlib

/-
Verification of the gobrew version-manager core (gobrew.go) against its
natural-language specification.

The embedding models strings as lists of characters and the on-disk state as
an explicit record of existing directories, existing regular files, and the
two symbolic links current/bin and current/go.  Go path functions
(filepath.Join, filepath.Clean, strings.ReplaceAll) are implemented
faithfully; the HOME directory and the host architecture string are fixed at
concrete well-behaved values ("/home/user", "linux-amd64").  Network fetch
and tar extraction are external collaborators whose success or failure is an
oracle boolean parameter; a log.Fatal in the source terminates the process,
which the model renders as an operation result with ok = false whose state is
the final on-disk state.
-/

namespace Gobrew

/-- Strings are modelled as lists of characters so that every string
operation is a structurally recursive, kernel-reducible function. -/
abbrev Str := List Char

def str (s : String) : Str := s.data

/-- Boolean prefix test on character lists. -/
def pfx : Str → Str → Bool
  | [], _ => true
  | _ :: _, [] => false
  | a :: as, b :: bs => decide (a = b) && pfx as bs

/-- Go strings.ReplaceAll, fuel-indexed so that the recursion is
structural (the fuel is the length of the scanned string; a match
consumes at least one character, so the fuel never runs out). -/
def replaceAux (pat rep : Str) : Nat → Str → Str
  | 0, s => s
  | Nat.succ n, s =>
    match s with
    | [] => []
    | c :: rest =>
      if pat ≠ [] ∧ pfx pat (c :: rest) = true then
        rep ++ replaceAux pat rep n (List.drop (pat.length - 1) rest)
      else
        c :: replaceAux pat rep n rest

/-- Go strings.ReplaceAll: replace every non-overlapping occurrence of
pat by rep, scanning left to right. -/
def replaceList (pat rep s : Str) : Str := replaceAux pat rep s.length s

/-- Split a character list at every slash character; a path with n slashes
yields n+1 segments (empty segments for repeated slashes). -/
def splitSlash : Str → List Str
  | [] => [[]]
  | c :: rest =>
    if c = '/' then [] :: splitSlash rest
    else
      match splitSlash rest with
      | [] => [[c]]
      | s :: ss => (c :: s) :: ss

/-- Join segments with single slashes (inverse of splitSlash on
slash-free segments). -/
def joinSegs : List Str → Str
  | [] => []
  | [s] => s
  | s :: rest => s ++ '/' :: joinSegs rest

/-- Whether a path is rooted (starts with a slash). -/
def rootedB : Str → Bool
  | [] => false
  | c :: _ => decide (c = '/')

/-- One step of Go path.Clean processing: skip empty and dot segments,
resolve dot-dot against the accumulated stack. -/
def cleanStep (rooted : Bool) (acc : List Str) (seg : Str) : List Str :=
  if seg = [] ∨ seg = ['.'] then acc
  else if seg = ['.', '.'] then
    match acc with
    | [] => if rooted then [] else [seg]
    | a :: rest => if a = ['.', '.'] then seg :: a :: rest else rest
  else seg :: acc

/-- Reassemble the processed segment stack into a path string. -/
def goCleanAssemble (rooted : Bool) (stack : List Str) : Str :=
  match rooted with
  | true => if joinSegs stack.reverse = [] then ['/'] else '/' :: joinSegs stack.reverse
  | false => if joinSegs stack.reverse = [] then ['.'] else joinSegs stack.reverse

/-- Go filepath.Clean for Unix paths: lexical simplification removing
repeated slashes, dot segments, and resolving dot-dot segments. -/
def goClean (p : Str) : Str :=
  goCleanAssemble (rootedB p) ((splitSlash p).foldl (cleanStep (rootedB p)) [])

/-- Go filepath.Join: join the non-empty elements with slashes and Clean
the result; empty if all elements are empty. -/
def goJoin (elems : List Str) : Str :=
  match elems.filter (fun e => !e.isEmpty) with
  | [] => []
  | es => goClean (joinSegs es)

/-- The model fixes HOME at a concrete well-behaved directory. -/
def homeDir : Str := str ("/home/user")

def installDir : Str := goJoin [homeDir, str (".gobrew")]

def versionsDir : Str := goJoin [installDir, str ("versions")]

def currentDir : Str := goJoin [installDir, str ("current")]

def currentBinDir : Str := goJoin [installDir, str ("current"), str ("bin")]

def currentGoDir : Str := goJoin [installDir, str ("current"), str ("go")]

def downloadsDir : Str := goJoin [installDir, str ("downloads")]

/-- getArch: runtime.GOOS + "-" + runtime.GOARCH, fixed for the model host. -/
def goArch : Str := str ("linux-amd64")

def registryPath : Str := str ("https://golang.org/dl/")

/-- On-disk state: the set of existing directories, the set of existing
regular files, and the targets of the two symbolic links (none when the
link does not exist).  Link targets may dangle; existence of the target
is checked separately at resolution time. -/
structure FS where
  dirs : List Str
  files : List Str
  binLink : Option Str
  goLink : Option Str
deriving DecidableEq

/-- Observable side effects of one operation. -/
inductive Eff where
  | mkdir : Str → Eff
  | removedTree : Str → Eff
  | fetched : Str → Eff
  | extractedTar : Str → Eff
  | linked : Str → Str → Eff
deriving DecidableEq

/-- Result of an operation: final state, effect trace, and whether the
operation completed normally (ok = false models log.Fatal terminating
the process with the given state left on disk). -/
structure Res where
  fs : FS
  effs : List Eff
  ok : Bool
deriving DecidableEq

def pathExistsB (fs : FS) (p : Str) : Bool :=
  decide (p ∈ fs.dirs) || decide (p ∈ fs.files)

/-- Append a trailing slash unless the path is the root. -/
def addSlash (p : Str) : Str :=
  if p = ['/'] then p else p ++ ['/']

/-- Whether path q lies in the subtree rooted at path p (p and q cleaned
absolute paths). -/
def isUnder (p q : Str) : Bool :=
  if q = p then true else pfx (addSlash p) q

/-- os.MkdirAll: create the directory if absent; pre-existing directories
are not an error.  Intermediate directories of multi-segment names are
not tracked separately; no modelled observation looks at them. -/
def mkdirAll (fs : FS) (p : Str) : FS × List Eff :=
  if p ∈ fs.dirs then (fs, [])
  else ({ fs with dirs := p :: fs.dirs }, [Eff.mkdir p])

/-- The state after os.RemoveAll(p): the whole subtree rooted at p is
gone, including any symbolic link whose own path lies in that subtree. -/
def removeAllFS (fs : FS) (p : Str) : FS :=
  { dirs := fs.dirs.filter (fun q => !isUnder p q)
    files := fs.files.filter (fun q => !isUnder p q)
    binLink := if isUnder p currentBinDir then none else fs.binLink
    goLink := if isUnder p currentGoDir then none else fs.goLink }

/-- os.RemoveAll: delete the whole subtree rooted at p.  Emits an effect
only when something actually existed there. -/
def removeAllOp (fs : FS) (p : Str) : FS × List Eff :=
  if removeAllFS fs p = fs then (fs, []) else (removeAllFS fs p, [Eff.removedTree p])

/-- filepath.EvalSymlinks applied to current/bin: resolves to the link
target when the link exists and its target exists, otherwise fails. -/
def evalSymlinksBin (fs : FS) : Option Str :=
  match fs.binLink with
  | none => none
  | some t => if pathExistsB fs t then some t else none

/-- The string stripping CurrentVersion performs on the resolved target
of current/bin. -/
def stripResolved (fp : Str) : Str :=
  let v1 := replaceList (str ("/go/bin")) [] fp
  let v2 := replaceList versionsDir [] v1
  replaceList (str ("/")) [] v2

/-- CurrentVersion: resolve current/bin and strip the surrounding path
components; empty when the link is absent or broken. -/
def currentVersion (fs : FS) : Str :=
  match evalSymlinksBin fs with
  | none => []
  | some fp => stripResolved fp

/-- getVersionDir: filepath.Join(versionsDir, version). -/
def getVersionDir (v : Str) : Str := goJoin [versionsDir, v]

/-- existsVersion: os.Stat(filepath.Join(versionsDir, version, "go")). -/
def existsVersion (fs : FS) (v : Str) : Bool :=
  pathExistsB fs (goJoin [versionsDir, v, str ("go")])

def cleanVersionDir (fs : FS) (v : Str) : FS × List Eff :=
  removeAllOp fs (getVersionDir v)

def cleanDownloadsDir (fs : FS) : FS × List Eff :=
  removeAllOp fs downloadsDir

/-- mkdirs: create the install skeleton and the version directory. -/
def mkdirs (fs : FS) (v : Str) : FS × List Eff :=
  let r1 := mkdirAll fs installDir
  let r2 := mkdirAll r1.1 currentDir
  let r3 := mkdirAll r2.1 versionsDir
  let r4 := mkdirAll r3.1 (getVersionDir v)
  let r5 := mkdirAll r4.1 downloadsDir
  (r5.1, r1.2 ++ r2.2 ++ r3.2 ++ r4.2 ++ r5.2)

def tarName (v : Str) : Str :=
  str ("go") ++ v ++ str (".") ++ goArch ++ str (".tar.gz")

def downloadURL (v : Str) : Str := registryPath ++ tarName v

def tarPath (v : Str) : Str := goJoin [downloadsDir, tarName v]

/-- Path of the extracted toolchain directory versions/v/go. -/
def goDirOf (v : Str) : Str := goJoin [versionsDir, v, str ("go")]

/-- Path of the bin directory inside an extracted toolchain,
the target changeSymblinkGoBin links current/bin to. -/
def binTargetOf (v : Str) : Str := goJoin [versionsDir, v, str ("/go/bin")]

/-- Modelled from the spec: utils.Download is part of this repository but
its source is not under src/.  The spec says the transport, given a URL
and a destination path, fetches the resource to disk or fails; on success
the artifact file exists at the destination, on failure nothing is
created.  Success is an oracle parameter. -/
def downloadTo (fs : FS) (url dst : Str) (fetchOK : Bool) : Res :=
  if fetchOK then
    ⟨{ fs with files := if dst ∈ fs.files then fs.files else dst :: fs.files },
      [Eff.fetched url], true⟩
  else ⟨fs, [Eff.fetched url], false⟩

/-- Modelled from the spec: archive extraction (the tar child process) is
an external collaborator; on success the extracted toolchain tree
versions/v/go (with its bin subdirectory) exists in the version
directory, on failure nothing is created.  Success is an oracle
parameter. -/
def extractTar (fs : FS) (v : Str) (extractOK : Bool) : Res :=
  let goDir := goJoin [versionsDir, v, str ("go")]
  let goBin := goJoin [versionsDir, v, str ("/go/bin")]
  if extractOK then
    ⟨{ fs with dirs := goDir :: goBin :: fs.dirs }, [Eff.extractedTar v], true⟩
  else ⟨fs, [Eff.extractedTar v], false⟩

/-- downloadAndExtract: fetch the artifact, then untar it into the version
directory; on either failure delete the version directory and terminate
via log.Fatalf. -/
def downloadAndExtract (fs : FS) (v : Str) (fetchOK extractOK : Bool) : Res :=
  let rd := downloadTo fs (downloadURL v) (tarPath v) fetchOK
  if rd.ok then
    let re := extractTar rd.fs v extractOK
    if re.ok then ⟨re.fs, rd.effs ++ re.effs, true⟩
    else
      let rc := cleanVersionDir re.fs v
      ⟨rc.1, rd.effs ++ re.effs ++ rc.2, false⟩
  else
    let rc := cleanVersionDir rd.fs v
    ⟨rc.1, rd.effs ++ rc.2, false⟩

/-- Install: reject the empty version, build the skeleton, no-op when the
version already exists, otherwise download and extract and finally remove
the downloads directory. -/
def Install (fs : FS) (v : Str) (fetchOK extractOK : Bool) : Res :=
  if v = [] then ⟨fs, [], false⟩
  else
    let m := mkdirs fs v
    if existsVersion m.1 v then ⟨m.1, m.2, true⟩
    else
      let r := downloadAndExtract m.1 v fetchOK extractOK
      if r.ok then
        let c := cleanDownloadsDir r.fs
        ⟨c.1, m.2 ++ r.effs ++ c.2, true⟩
      else ⟨r.fs, m.2 ++ r.effs, false⟩

/-- changeSymblinkGoBin: remove whatever is at current/bin and link it to
versions/version/go/bin; the ln child process fails when the parent
directory current/ does not exist. -/
def changeSymblinkGoBin (fs : FS) (v : Str) : Res :=
  let goBinDst := goJoin [versionsDir, v, str ("/go/bin")]
  let r := removeAllOp fs currentBinDir
  if currentDir ∈ r.1.dirs then
    ⟨{ r.1 with binLink := some goBinDst },
      r.2 ++ [Eff.linked goBinDst currentBinDir], true⟩
  else ⟨r.1, r.2, false⟩

/-- changeSymblinkGo: remove whatever is at current/go, re-resolve the
current version from the bin link, and link current/go to that version. -/
def changeSymblinkGo (fs : FS) (_v : Str) : Res :=
  let r := removeAllOp fs currentGoDir
  let versionGoDir := goJoin [versionsDir, currentVersion r.1, str ("go")]
  if currentDir ∈ r.1.dirs then
    ⟨{ r.1 with goLink := some versionGoDir },
      r.2 ++ [Eff.linked versionGoDir currentGoDir], true⟩
  else ⟨r.1, r.2, false⟩

/-- Use: no-op when the requested version is already current, otherwise
replace the bin link and then the go link. -/
def Use (fs : FS) (v : Str) : Res :=
  if currentVersion fs = v then ⟨fs, [], true⟩
  else
    let r1 := changeSymblinkGoBin fs v
    if r1.ok then
      let r2 := changeSymblinkGo r1.fs v
      ⟨r2.fs, r1.effs ++ r2.effs, r2.ok⟩
    else r1

/-- Uninstall: reject the empty version, the current version, and a
version that is not installed; otherwise recursively delete the
version directory. -/
def Uninstall (fs : FS) (v : Str) : Res :=
  if v = [] then ⟨fs, [], false⟩
  else if currentVersion fs = v then ⟨fs, [], false⟩
  else if existsVersion fs v = false then ⟨fs, [], false⟩
  else
    let r := cleanVersionDir fs v
    ⟨r.1, r.2, true⟩

/-- Fresh model filesystem: only the home directory exists. -/
def initFS : FS := ⟨[str ("/home"), str ("/home/user")], [], none, none⟩

/-- A version string that is a single plain path segment. -/
def plainSeg (v : Str) : Bool :=
  decide (v ≠ [] ∧ '/' ∉ v ∧ v ≠ ['.'] ∧ v ≠ ['.', '.'])

/-- Membership-based equality of on-disk states. -/
def sameStateB (a b : FS) : Bool :=
  a.dirs.all (fun p => b.dirs.contains p) &&
  b.dirs.all (fun p => a.dirs.contains p) &&
  a.files.all (fun p => b.files.contains p) &&
  b.files.all (fun p => a.files.contains p) &&
  decide (a.binLink = b.binLink) && decide (a.goLink = b.goLink)

def v117 : Str := str ("1.17")

/-- State after a successful install of 1.17 on a fresh filesystem. -/
def fsSkel : FS := (Install initFS v117 true true).fs

/-- State after additionally switching to 1.17. -/
def fsActive : FS := (Use fsSkel v117).fs

theorem pfx_refl (a : Str) : pfx a a = true := by
  induction a with
  | nil => rfl
  | cons x xs ih => simp [pfx, ih]

theorem pfx_append (a b : Str) : pfx a (a ++ b) = true := by
  induction a with
  | nil => rfl
  | cons x xs ih => simp [pfx, ih]

theorem pfx_length {a b : Str} (h : pfx a b = true) : a.length ≤ b.length := by
  induction a generalizing b with
  | nil => simp
  | cons x xs ih =>
    cases b with
    | nil => simp [pfx] at h
    | cons y ys =>
      simp only [pfx, Bool.and_eq_true, decide_eq_true_eq] at h
      simpa using ih h.2

theorem pfx_trans {a b c : Str} (h1 : pfx a b = true) (h2 : pfx b c = true) :
    pfx a c = true := by
  induction a generalizing b c with
  | nil => rfl
  | cons x xs ih =>
    cases b with
    | nil => simp [pfx] at h1
    | cons y ys =>
      cases c with
      | nil => simp [pfx] at h2
      | cons z zs =>
        simp only [pfx, Bool.and_eq_true, decide_eq_true_eq] at h1 h2 ⊢
        exact ⟨h1.1.trans h2.1, ih h1.2 h2.2⟩

theorem pfx_total {a b c : Str} (h1 : pfx a c = true) (h2 : pfx b c = true) :
    pfx a b = true ∨ pfx b a = true := by
  induction c generalizing a b with
  | nil =>
    cases a with
    | nil => exact Or.inl rfl
    | cons x xs => simp [pfx] at h1
  | cons z zs ih =>
    cases a with
    | nil => exact Or.inl rfl
    | cons x xs =>
      cases b with
      | nil => exact Or.inr rfl
      | cons y ys =>
        simp only [pfx, Bool.and_eq_true, decide_eq_true_eq] at h1 h2 ⊢
        rcases ih h1.2 h2.2 with h | h
        · exact Or.inl ⟨h1.1.trans h2.1.symm, h⟩
        · exact Or.inr ⟨h2.1.trans h1.1.symm, h⟩

theorem pfx_of_append_le {a p : Str} (t : Str) (h : pfx a (p ++ t) = true)
    (hl : a.length ≤ p.length) : pfx a p = true := by
  induction a generalizing p with
  | nil => rfl
  | cons x xs ih =>
    cases p with
    | nil => simp at hl
    | cons q qs =>
      simp only [List.cons_append, pfx, Bool.and_eq_true, decide_eq_true_eq] at h ⊢
      exact ⟨h.1, ih h.2 (by simpa using hl)⟩

theorem pfx_eq_of_length {a b : Str} (h : pfx a b = true) (hl : b.length ≤ a.length) :
    a = b := by
  induction a generalizing b with
  | nil => cases b with
    | nil => rfl
    | cons y ys => simp at hl
  | cons x xs ih =>
    cases b with
    | nil => simp [pfx] at h
    | cons y ys =>
      simp only [pfx, Bool.and_eq_true, decide_eq_true_eq] at h
      have := ih h.2 (by simpa using hl)
      simp [h.1, this]

theorem ne_of_pfx {A p q : Str} (h1 : pfx A p = true) (h2 : pfx A q = false) : p ≠ q := by
  intro e
  rw [e, h2] at h1
  exact Bool.noConfusion h1

theorem splitSlash_ne_nil (l : Str) : splitSlash l ≠ [] := by
  cases l with
  | nil => simp [splitSlash]
  | cons c rest =>
    by_cases h : c = '/'
    · simp [splitSlash, h]
    · cases hs : splitSlash rest <;> simp [splitSlash, h, hs]

theorem splitSlash_append (xs ys : Str) :
    splitSlash (xs ++ '/' :: ys) = splitSlash xs ++ splitSlash ys := by
  induction xs with
  | nil => simp [splitSlash]
  | cons c rest ih =>
    by_cases h : c = '/'
    · subst h
      simp [splitSlash, ih]
    · cases hs : splitSlash rest with
      | nil => exact absurd hs (splitSlash_ne_nil rest)
      | cons s ss => simp [splitSlash, h, ih, hs]

theorem splitSlash_no_slash {l : Str} (h : '/' ∉ l) : splitSlash l = [l] := by
  induction l with
  | nil => rfl
  | cons c rest ih =>
    simp only [List.mem_cons, not_or] at h
    have h1 : ¬ c = '/' := fun e => h.1 e.symm
    cases hs : splitSlash rest with
    | nil => exact absurd hs (splitSlash_ne_nil rest)
    | cons s ss =>
      have := ih h.2
      rw [hs] at this
      simp only [List.cons.injEq] at this
      simp [splitSlash, h1, hs, this.1, this.2]

theorem cleanStep_empty (r : Bool) (acc : List Str) : cleanStep r acc [] = acc := by
  simp [cleanStep]

theorem cleanStep_push (r : Bool) (acc : List Str) {s : Str} (h1 : s ≠ [])
    (h2 : s ≠ ['.']) (h3 : s ≠ ['.', '.']) : cleanStep r acc s = s :: acc := by
  simp [cleanStep, h1, h2, h3]

theorem cleanStep_keeps (r : Bool) (acc : List Str) (s : Str)
    (h : ∀ x ∈ acc, x ≠ []) : ∀ x ∈ cleanStep r acc s, x ≠ [] := by
  intro x hx
  unfold cleanStep at hx
  by_cases h1 : s = [] ∨ s = ['.']
  · rw [if_pos h1] at hx
    exact h x hx
  · rw [if_neg h1] at hx
    by_cases h2 : s = ['.', '.']
    · rw [if_pos h2] at hx
      cases acc with
      | nil =>
        by_cases hr : r = true
        · simp [hr] at hx
        · simp [hr] at hx
          rw [hx, h2]
          simp
      | cons a rest =>
        by_cases ha : a = ['.', '.']
        · simp only [if_pos ha, List.mem_cons] at hx
          rcases hx with hx | hx | hx
          · rw [hx, h2]
            simp
          · rw [hx, ha]
            simp
          · exact h x (List.mem_cons_of_mem a hx)
        · simp only [if_neg ha] at hx
          exact h x (List.mem_cons_of_mem a hx)
    · rw [if_neg h2] at hx
      rcases List.mem_cons.mp hx with h3 | h3
      · subst h3
        intro e
        exact h1 (Or.inl e)
      · exact h x h3

theorem stack_ne_nil (r : Bool) (segs : List Str) (acc : List Str)
    (h : ∀ x ∈ acc, x ≠ []) : ∀ x ∈ List.foldl (cleanStep r) acc segs, x ≠ [] := by
  induction segs generalizing acc with
  | nil => simpa using h
  | cons s ss ih =>
    simp only [List.foldl_cons]
    exact ih _ (cleanStep_keeps r acc s h)

theorem joinSegs_append_one {A : List Str} (s : Str) (h : A ≠ []) :
    joinSegs (A ++ [s]) = joinSegs A ++ '/' :: s := by
  induction A with
  | nil => exact absurd rfl h
  | cons a rest ih =>
    cases rest with
    | nil => simp [joinSegs]
    | cons b bs =>
      have h2 := ih (by simp)
      simp only [List.cons_append] at h2 ⊢
      calc joinSegs (a :: b :: (bs ++ [s]))
          = a ++ '/' :: joinSegs (b :: (bs ++ [s])) := by simp [joinSegs]
        _ = a ++ '/' :: (joinSegs (b :: bs) ++ '/' :: s) := by rw [h2]
        _ = (a ++ '/' :: joinSegs (b :: bs)) ++ '/' :: s := by simp
        _ = joinSegs (a :: b :: bs) ++ '/' :: s := by simp [joinSegs]

theorem joinSegs_ne_nil {A : List Str} (hA : A ≠ []) (h : ∀ x ∈ A, x ≠ []) :
    joinSegs A ≠ [] := by
  cases A with
  | nil => exact absurd rfl hA
  | cons a rest =>
    cases rest with
    | nil => simpa [joinSegs] using h a (by simp)
    | cons b bs => simp [joinSegs]

theorem rootedB_append {l : Str} (m : Str) (h : l ≠ []) : rootedB (l ++ m) = rootedB l := by
  cases l with
  | nil => exact absurd rfl h
  | cons c rest => simp [rootedB]

theorem addSlash_of_ne {p : Str} (h : p ≠ ['/']) : addSlash p = p ++ ['/'] := by
  simp [addSlash, h]

theorem pfx_addSlash (p : Str) : pfx p (addSlash p) = true := by
  unfold addSlash
  split
  · exact pfx_refl p
  · exact pfx_append p ['/']

theorem addSlash_length (p : Str) : p.length ≤ (addSlash p).length := by
  unfold addSlash
  split
  · exact Nat.le_refl _
  · simp

theorem isUnder_self (p : Str) : isUnder p p = true := by
  simp [isUnder]

theorem isUnder_extend (p t : Str) : isUnder p (addSlash p ++ t) = true := by
  unfold isUnder
  split
  · rfl
  · exact pfx_append _ _

theorem isUnder_false_of_short {A p q : Str} (hA : pfx A p = true)
    (hq : q.length < A.length) : isUnder p q = false := by
  have hAl := pfx_length hA
  unfold isUnder
  split
  · case isTrue h =>
    exfalso
    have : q.length = p.length := by rw [h]
    omega
  · case isFalse h =>
    cases hc : pfx (addSlash p) q with
    | false => rfl
    | true =>
      exfalso
      have h1 := pfx_length hc
      have h2 := addSlash_length p
      omega

theorem isUnder_false_of_sep {A B p q : Str} (hp : pfx A p = true) (hq : pfx B q = true)
    (hAB : pfx A B = false) (hBA : pfx B A = false) : isUnder p q = false := by
  unfold isUnder
  split
  · case isTrue h =>
    exfalso
    rw [h] at hq
    rcases pfx_total hp hq with h3 | h3
    · rw [hAB] at h3; exact Bool.noConfusion h3
    · rw [hBA] at h3; exact Bool.noConfusion h3
  · case isFalse h =>
    cases hc : pfx (addSlash p) q with
    | false => rfl
    | true =>
      exfalso
      have h1 : pfx p q = true := pfx_trans (pfx_addSlash p) hc
      have h2 : pfx A q = true := pfx_trans hp h1
      rcases pfx_total h2 hq with h3 | h3
      · rw [hAB] at h3; exact Bool.noConfusion h3
      · rw [hBA] at h3; exact Bool.noConfusion h3

theorem ne_slash_of_len {q : Str} (h : 2 ≤ q.length) : q ≠ ['/'] := by
  intro e
  rw [e] at h
  simp at h

theorem assemble_push {S : List Str} {s : Str} (hS : ∀ x ∈ S, x ≠ []) (hs : s ≠ []) :
    goCleanAssemble true (s :: S) = addSlash (goCleanAssemble true S) ++ s := by
  unfold goCleanAssemble
  cases S with
  | nil => simp [joinSegs, addSlash, hs]
  | cons t ts =>
    have hrev : (t :: ts).reverse ≠ [] := by simp
    have hb : joinSegs (t :: ts).reverse ≠ [] :=
      joinSegs_ne_nil hrev (by intro x hx; exact hS x (List.mem_reverse.mp hx))
    have hb2 : joinSegs (t :: ts).reverse ++ '/' :: s ≠ [] := by simp
    rw [List.reverse_cons, joinSegs_append_one s hrev, if_neg hb2, if_neg hb,
      addSlash_of_ne (by
        intro e
        simp only [List.cons.injEq] at e
        exact hb e.2)]
    simp

theorem goClean_snoc {X s : Str} (hr : rootedB X = true) (h1 : s ≠ [])
    (h2 : s ≠ ['.']) (h3 : s ≠ ['.', '.']) (hs : '/' ∉ s) :
    goClean (X ++ '/' :: s) = addSlash (goClean X) ++ s := by
  have hXne : X ≠ [] := by
    intro e
    rw [e] at hr
    simp [rootedB] at hr
  unfold goClean
  rw [rootedB_append _ hXne, hr, splitSlash_append, splitSlash_no_slash hs,
    List.foldl_append]
  simp only [List.foldl_cons, List.foldl_nil]
  rw [cleanStep_push true _ h1 h2 h3]
  exact assemble_push (stack_ne_nil true _ [] (by simp)) h1

theorem goClean_skip {X t : Str} (hX : X ≠ []) :
    goClean (X ++ '/' :: '/' :: t) = goClean (X ++ '/' :: t) := by
  unfold goClean
  rw [rootedB_append _ hX, rootedB_append _ hX,
    splitSlash_append X ('/' :: t), splitSlash_append X t,
    show splitSlash ('/' :: t) = [] :: splitSlash t from by simp [splitSlash],
    List.foldl_append, List.foldl_append]
  simp only [List.foldl_cons]
  rw [cleanStep_empty]

theorem versionsDir_val : versionsDir = str ("/home/user/.gobrew/versions") := by decide

theorem plainSeg_parts {v : Str} (hp : plainSeg v = true) :
    v ≠ [] ∧ '/' ∉ v ∧ v ≠ ['.'] ∧ v ≠ ['.', '.'] := by
  simpa [plainSeg] using hp

theorem isEmpty_false_of_ne {v : Str} (hv : v ≠ []) : v.isEmpty = false := by
  cases v with
  | nil => exact absurd rfl hv
  | cons a b => rfl

theorem getVersionDir_eq {v : Str} (hv : v ≠ []) :
    getVersionDir v = goClean (versionsDir ++ '/' :: v) := by
  unfold getVersionDir goJoin
  rw [List.filter_cons, List.filter_cons, List.filter_nil]
  simp only [isEmpty_false_of_ne hv, isEmpty_false_of_ne (show versionsDir ≠ [] by decide),
    Bool.not_false, if_pos]
  simp [joinSegs]

theorem goDirOf_eq {v : Str} (hv : v ≠ []) :
    goDirOf v = addSlash (getVersionDir v) ++ str ("go") := by
  unfold goDirOf goJoin
  rw [List.filter_cons, List.filter_cons, List.filter_cons, List.filter_nil]
  simp only [isEmpty_false_of_ne hv, isEmpty_false_of_ne (show versionsDir ≠ [] by decide),
    isEmpty_false_of_ne (show str ("go") ≠ [] by decide), Bool.not_false, if_pos]
  have hj : joinSegs [versionsDir, v, str ("go")]
      = (versionsDir ++ '/' :: v) ++ '/' :: str ("go") := by
    simp [joinSegs]
  rw [hj, goClean_snoc (by rw [rootedB_append _ (show versionsDir ≠ [] by decide)]; decide)
    (by decide) (by decide) (by decide) (by decide), getVersionDir_eq hv]

theorem binTargetOf_eq {v : Str} (hv : v ≠ []) :
    binTargetOf v = addSlash (addSlash (getVersionDir v) ++ str ("go")) ++ str ("bin") := by
  unfold binTargetOf goJoin
  rw [List.filter_cons, List.filter_cons, List.filter_cons, List.filter_nil]
  simp only [isEmpty_false_of_ne hv, isEmpty_false_of_ne (show versionsDir ≠ [] by decide),
    isEmpty_false_of_ne (show str ("/go/bin") ≠ [] by decide), Bool.not_false, if_pos]
  have hj : joinSegs [versionsDir, v, str ("/go/bin")]
      = (versionsDir ++ '/' :: v) ++ '/' :: '/' :: (str ("go") ++ '/' :: str ("bin")) := by
    simp [joinSegs, str]
  have hvd : versionsDir ++ '/' :: v ≠ [] := by simp
  have hroot : rootedB (versionsDir ++ '/' :: v) = true := by
    rw [rootedB_append _ (show versionsDir ≠ [] by decide)]
    decide
  rw [hj, goClean_skip hvd,
    show (versionsDir ++ '/' :: v) ++ '/' :: (str ("go") ++ '/' :: str ("bin"))
      = ((versionsDir ++ '/' :: v) ++ '/' :: str ("go")) ++ '/' :: str ("bin") from by simp,
    goClean_snoc (by rw [rootedB_append _ hvd]; exact hroot)
      (by decide) (by decide) (by decide) (by decide),
    goClean_snoc hroot (by decide) (by decide) (by decide) (by decide),
    getVersionDir_eq hv]

theorem binTargetOf_expand {v : Str} (hv : v ≠ []) :
    binTargetOf v = addSlash (getVersionDir v) ++ str ("go/bin") := by
  rw [binTargetOf_eq hv, addSlash_of_ne (by
    apply ne_slash_of_len
    simp [str])]
  simp [str]

theorem getVersionDir_plain {v : Str} (hp : plainSeg v = true) :
    getVersionDir v = versionsDir ++ '/' :: v := by
  obtain ⟨h1, h2, h3, h4⟩ := plainSeg_parts hp
  rw [getVersionDir_eq h1, goClean_snoc (by decide) h1 h3 h4 h2,
    show goClean versionsDir = versionsDir from by decide,
    addSlash_of_ne (by decide)]
  simp

theorem pfx_versions_getVersionDir {v : Str} (hp : plainSeg v = true) :
    pfx (versionsDir ++ ['/']) (getVersionDir v) = true := by
  rw [getVersionDir_plain hp,
    show versionsDir ++ '/' :: v = (versionsDir ++ ['/']) ++ v from by simp]
  exact pfx_append _ _

theorem pfx_versions_goDirOf {v : Str} (hp : plainSeg v = true) :
    pfx (versionsDir ++ ['/']) (goDirOf v) = true := by
  rw [goDirOf_eq (plainSeg_parts hp).1]
  exact pfx_trans (pfx_versions_getVersionDir hp)
    (pfx_trans (pfx_addSlash _) (pfx_append _ _))

theorem pfx_versions_binTargetOf {v : Str} (hp : plainSeg v = true) :
    pfx (versionsDir ++ ['/']) (binTargetOf v) = true := by
  rw [binTargetOf_expand (plainSeg_parts hp).1]
  exact pfx_trans (pfx_versions_getVersionDir hp)
    (pfx_trans (pfx_addSlash _) (pfx_append _ _))

theorem isUnder_binDir_binTarget {v : Str} (hp : plainSeg v = true) :
    isUnder currentBinDir (binTargetOf v) = false :=
  isUnder_false_of_sep (pfx_refl currentBinDir) (pfx_versions_binTargetOf hp)
    (by decide) (by decide)

theorem isUnder_goDir_binTarget {v : Str} (hp : plainSeg v = true) :
    isUnder currentGoDir (binTargetOf v) = false :=
  isUnder_false_of_sep (pfx_refl currentGoDir) (pfx_versions_binTargetOf hp)
    (by decide) (by decide)

theorem isUnder_binDir_goDir {v : Str} (hp : plainSeg v = true) :
    isUnder currentBinDir (goDirOf v) = false :=
  isUnder_false_of_sep (pfx_refl currentBinDir) (pfx_versions_goDirOf hp)
    (by decide) (by decide)

theorem isUnder_goDir_goDir {v : Str} (hp : plainSeg v = true) :
    isUnder currentGoDir (goDirOf v) = false :=
  isUnder_false_of_sep (pfx_refl currentGoDir) (pfx_versions_goDirOf hp)
    (by decide) (by decide)

theorem goDirOf_ne_getVersionDir {v : Str} (hv : v ≠ []) :
    goDirOf v ≠ getVersionDir v := by
  have hl := addSlash_length (getVersionDir v)
  intro e
  rw [goDirOf_eq hv] at e
  have := congrArg List.length e
  simp [str] at this
  omega

theorem isUnder_versionDir_goDir {v : Str} (hv : v ≠ []) :
    isUnder (getVersionDir v) (goDirOf v) = true := by
  rw [goDirOf_eq hv]
  exact isUnder_extend _ _

theorem tarName_ne_nil (v : Str) : tarName v ≠ [] := by
  unfold tarName
  rw [show str ("go") = ['g', 'o'] from by decide]
  simp

theorem tarName_no_slash {v : Str} (hv : '/' ∉ v) : '/' ∉ tarName v := by
  intro h
  simp only [tarName, List.mem_append] at h
  rcases h with ((((h | h) | h) | h) | h)
  · revert h; decide
  · exact hv h
  · revert h; decide
  · revert h; decide
  · revert h; decide

theorem tarName_ne_dot (v : Str) : tarName v ≠ ['.'] ∧ tarName v ≠ ['.', '.'] := by
  constructor <;>
  · intro e
    unfold tarName at e
    rw [show str ("go") = ['g', 'o'] from by decide] at e
    simp at e

theorem tarPath_eq {v : Str} (hv : '/' ∉ v) :
    tarPath v = downloadsDir ++ '/' :: tarName v := by
  unfold tarPath goJoin
  rw [List.filter_cons, List.filter_cons, List.filter_nil]
  simp only [isEmpty_false_of_ne (tarName_ne_nil v),
    isEmpty_false_of_ne (show downloadsDir ≠ [] by decide), Bool.not_false, if_pos]
  have hj : joinSegs [downloadsDir, tarName v] = downloadsDir ++ '/' :: tarName v := by
    simp [joinSegs]
  rw [hj, goClean_snoc (by decide) (tarName_ne_nil v) (tarName_ne_dot v).1
    (tarName_ne_dot v).2 (tarName_no_slash hv),
    show goClean downloadsDir = downloadsDir from by decide,
    addSlash_of_ne (by decide)]
  simp

theorem pfx_downloads_tarPath {v : Str} (hv : '/' ∉ v) :
    pfx (downloadsDir ++ ['/']) (tarPath v) = true := by
  rw [tarPath_eq hv,
    show downloadsDir ++ '/' :: tarName v = (downloadsDir ++ ['/']) ++ tarName v from by simp]
  exact pfx_append _ _

theorem not_pfx_versions_tarPath {v : Str} (hv : '/' ∉ v) :
    pfx (versionsDir ++ ['/']) (tarPath v) = false := by
  cases h : pfx (versionsDir ++ ['/']) (tarPath v) with
  | false => rfl
  | true =>
    exfalso
    rcases pfx_total h (pfx_downloads_tarPath hv) with h2 | h2
    · revert h2; decide
    · revert h2; decide

theorem mkdirAll_of_mem {fs : FS} {p : Str} (h : p ∈ fs.dirs) : mkdirAll fs p = (fs, []) := by
  simp [mkdirAll, h]

theorem mkdirAll_of_not_mem {fs : FS} {p : Str} (h : p ∉ fs.dirs) :
    mkdirAll fs p = ({ fs with dirs := p :: fs.dirs }, [Eff.mkdir p]) := by
  simp [mkdirAll, h]

theorem mkdirAll_dirs_mem {fs : FS} {p q : Str} :
    q ∈ (mkdirAll fs p).1.dirs ↔ q = p ∨ q ∈ fs.dirs := by
  by_cases h : p ∈ fs.dirs
  · rw [mkdirAll_of_mem h]
    constructor
    · exact Or.inr
    · rintro (e | hq)
      · exact e ▸ h
      · exact hq
  · rw [mkdirAll_of_not_mem h]
    simp

theorem mkdirAll_files {fs : FS} (p : Str) : (mkdirAll fs p).1.files = fs.files := by
  by_cases h : p ∈ fs.dirs <;> simp [mkdirAll, h]

theorem mkdirAll_binLink {fs : FS} (p : Str) : (mkdirAll fs p).1.binLink = fs.binLink := by
  by_cases h : p ∈ fs.dirs <;> simp [mkdirAll, h]

theorem mkdirAll_goLink {fs : FS} (p : Str) : (mkdirAll fs p).1.goLink = fs.goLink := by
  by_cases h : p ∈ fs.dirs <;> simp [mkdirAll, h]

theorem mkdirs_dirs_mem {fs : FS} {v q : Str} :
    q ∈ (mkdirs fs v).1.dirs ↔
      q = installDir ∨ q = currentDir ∨ q = versionsDir ∨ q = getVersionDir v ∨
      q = downloadsDir ∨ q ∈ fs.dirs := by
  unfold mkdirs
  simp only [mkdirAll_dirs_mem]
  tauto

theorem mkdirs_files {fs : FS} (v : Str) : (mkdirs fs v).1.files = fs.files := by
  unfold mkdirs
  simp [mkdirAll_files]

theorem mkdirs_binLink {fs : FS} (v : Str) : (mkdirs fs v).1.binLink = fs.binLink := by
  unfold mkdirs
  simp [mkdirAll_binLink]

theorem mkdirs_goLink {fs : FS} (v : Str) : (mkdirs fs v).1.goLink = fs.goLink := by
  unfold mkdirs
  simp [mkdirAll_goLink]

theorem removeAll_fs {fs : FS} (p : Str) : (removeAllOp fs p).1 = removeAllFS fs p := by
  unfold removeAllOp
  split
  next h => exact h.symm
  next => rfl

theorem removeAll_dirs_mem {fs : FS} {p q : Str} :
    q ∈ (removeAllOp fs p).1.dirs ↔ q ∈ fs.dirs ∧ isUnder p q = false := by
  rw [removeAll_fs]
  simp [removeAllFS, List.mem_filter]

theorem removeAll_files_mem {fs : FS} {p q : Str} :
    q ∈ (removeAllOp fs p).1.files ↔ q ∈ fs.files ∧ isUnder p q = false := by
  rw [removeAll_fs]
  simp [removeAllFS, List.mem_filter]

theorem removeAll_binLink {fs : FS} (p : Str) :
    (removeAllOp fs p).1.binLink
      = if isUnder p currentBinDir then none else fs.binLink := by
  rw [removeAll_fs]
  rfl

theorem removeAll_goLink {fs : FS} (p : Str) :
    (removeAllOp fs p).1.goLink
      = if isUnder p currentGoDir then none else fs.goLink := by
  rw [removeAll_fs]
  rfl

theorem removeAll_effs_of_mem {fs : FS} {p q : Str}
    (hq : q ∈ fs.dirs ∨ q ∈ fs.files) (hu : isUnder p q = true) :
    (removeAllOp fs p).2 = [Eff.removedTree p] := by
  unfold removeAllOp
  split
  next h =>
    exfalso
    rcases hq with hq | hq
    · have hd := congrArg FS.dirs h
      simp only [removeAllFS] at hd
      rw [← hd] at hq
      have h2 := (List.mem_filter.mp hq).2
      rw [hu] at h2
      exact Bool.noConfusion h2
    · have hd := congrArg FS.files h
      simp only [removeAllFS] at hd
      rw [← hd] at hq
      have h2 := (List.mem_filter.mp hq).2
      rw [hu] at h2
      exact Bool.noConfusion h2
  next => rfl

theorem pathExistsB_iff {fs : FS} {q : Str} :
    pathExistsB fs q = true ↔ q ∈ fs.dirs ∨ q ∈ fs.files := by
  simp [pathExistsB]

theorem pathExistsB_true_of_dir {fs : FS} {q : Str} (h : q ∈ fs.dirs) :
    pathExistsB fs q = true := by
  simp [pathExistsB, h]

theorem existsVersion_iff {fs : FS} {v : Str} :
    existsVersion fs v = true ↔ goDirOf v ∈ fs.dirs ∨ goDirOf v ∈ fs.files := by
  simp [existsVersion, pathExistsB, goDirOf]

theorem currentVersion_none {fs : FS} (h : fs.binLink = none) : currentVersion fs = [] := by
  simp [currentVersion, evalSymlinksBin, h]

theorem currentVersion_broken {fs : FS} {t : Str} (h : fs.binLink = some t)
    (he : pathExistsB fs t = false) : currentVersion fs = [] := by
  simp [currentVersion, evalSymlinksBin, h, he]

theorem currentVersion_resolved {fs : FS} {t : Str} (h : fs.binLink = some t)
    (he : pathExistsB fs t = true) : currentVersion fs = stripResolved t := by
  simp [currentVersion, evalSymlinksBin, h, he]

theorem use_switch_core {fs : FS} {v : Str} (hp : plainSeg v = true)
    (hstrip : stripResolved (binTargetOf v) = v)
    (hcur : currentVersion fs ≠ v) (hcd : currentDir ∈ fs.dirs)
    (hbin : binTargetOf v ∈ fs.dirs) :
    (Use fs v).ok = true ∧ (Use fs v).fs.binLink = some (binTargetOf v) ∧
    (Use fs v).fs.goLink = some (goDirOf v) ∧ currentVersion (Use fs v).fs = v ∧
    (∀ q, q ∈ (Use fs v).fs.dirs ↔
      q ∈ fs.dirs ∧ isUnder currentBinDir q = false ∧ isUnder currentGoDir q = false) := by
  have hu1 : isUnder currentBinDir currentDir = false := by decide
  have hu2 : isUnder currentGoDir currentDir = false := by decide
  have hu3 : isUnder currentGoDir currentBinDir = false := by decide
  have hpb := pfx_versions_binTargetOf hp
  have hb1 : isUnder currentBinDir (binTargetOf v) = false :=
    isUnder_false_of_sep (pfx_refl currentBinDir) hpb (by decide) (by decide)
  have hb2 : isUnder currentGoDir (binTargetOf v) = false :=
    isUnder_false_of_sep (pfx_refl currentGoDir) hpb (by decide) (by decide)
  have hcdA : currentDir ∈ (removeAllOp fs currentBinDir).1.dirs :=
    removeAll_dirs_mem.mpr ⟨hcd, hu1⟩
  have h1 : changeSymblinkGoBin fs v =
      ⟨{ (removeAllOp fs currentBinDir).1 with binLink := some (binTargetOf v) },
        (removeAllOp fs currentBinDir).2 ++ [Eff.linked (binTargetOf v) currentBinDir],
        true⟩ := by
    simp only [changeSymblinkGoBin, binTargetOf]
    rw [if_pos hcdA]
  have hmemA : ∀ q,
      q ∈ ({ (removeAllOp fs currentBinDir).1 with
        binLink := some (binTargetOf v) } : FS).dirs ↔
      q ∈ fs.dirs ∧ isUnder currentBinDir q = false := by
    intro q
    exact removeAll_dirs_mem
  have hbinB : (removeAllOp ({ (removeAllOp fs currentBinDir).1 with
      binLink := some (binTargetOf v) } : FS) currentGoDir).1.binLink
      = some (binTargetOf v) := by
    rw [removeAll_binLink, if_neg (by rw [hu3]; exact Bool.false_ne_true)]
  have hmemB : ∀ q, q ∈ (removeAllOp ({ (removeAllOp fs currentBinDir).1 with
      binLink := some (binTargetOf v) } : FS) currentGoDir).1.dirs ↔
      q ∈ fs.dirs ∧ isUnder currentBinDir q = false ∧ isUnder currentGoDir q = false := by
    intro q
    rw [removeAll_dirs_mem, hmemA q]
    tauto
  have hbinmemB : binTargetOf v ∈ (removeAllOp ({ (removeAllOp fs currentBinDir).1 with
      binLink := some (binTargetOf v) } : FS) currentGoDir).1.dirs :=
    (hmemB _).mpr ⟨hbin, hb1, hb2⟩
  have hcv : currentVersion (removeAllOp ({ (removeAllOp fs currentBinDir).1 with
      binLink := some (binTargetOf v) } : FS) currentGoDir).1 = v := by
    rw [currentVersion_resolved hbinB (pathExistsB_true_of_dir hbinmemB), hstrip]
  have hcdB : currentDir ∈ (removeAllOp ({ (removeAllOp fs currentBinDir).1 with
      binLink := some (binTargetOf v) } : FS) currentGoDir).1.dirs :=
    (hmemB _).mpr ⟨hcd, hu1, hu2⟩
  have h2 : changeSymblinkGo ({ (removeAllOp fs currentBinDir).1 with
      binLink := some (binTargetOf v) } : FS) v =
      ⟨{ (removeAllOp ({ (removeAllOp fs currentBinDir).1 with
          binLink := some (binTargetOf v) } : FS) currentGoDir).1 with
          goLink := some (goDirOf v) },
        (removeAllOp ({ (removeAllOp fs currentBinDir).1 with
          binLink := some (binTargetOf v) } : FS) currentGoDir).2 ++
          [Eff.linked (goDirOf v) currentGoDir],
        true⟩ := by
    simp only [changeSymblinkGo, goDirOf]
    rw [hcv, if_pos hcdB]
  have hUse : Use fs v =
      ⟨{ (removeAllOp ({ (removeAllOp fs currentBinDir).1 with
          binLink := some (binTargetOf v) } : FS) currentGoDir).1 with
          goLink := some (goDirOf v) },
        ((removeAllOp fs currentBinDir).2 ++ [Eff.linked (binTargetOf v) currentBinDir]) ++
          ((removeAllOp ({ (removeAllOp fs currentBinDir).1 with
            binLink := some (binTargetOf v) } : FS) currentGoDir).2 ++
            [Eff.linked (goDirOf v) currentGoDir]),
        true⟩ := by
    simp only [Use]
    rw [if_neg hcur, h1]
    dsimp only
    rw [if_pos rfl, h2]
  refine ⟨by rw [hUse], by rw [hUse]; exact hbinB, by rw [hUse], ?_, ?_⟩
  · rw [hUse]
    have hfb : ({ (removeAllOp ({ (removeAllOp fs currentBinDir).1 with
        binLink := some (binTargetOf v) } : FS) currentGoDir).1 with
        goLink := some (goDirOf v) } : FS).binLink = some (binTargetOf v) := hbinB
    rw [currentVersion_resolved hfb (pathExistsB_true_of_dir hbinmemB), hstrip]
  · intro q
    rw [hUse]
    exact hmemB q

theorem use_resolvesEmpty_core {fs : FS} {v : Str}
    (hcur : currentVersion fs ≠ v) (hcd : currentDir ∈ fs.dirs)
    (hres : pathExistsB fs (binTargetOf v) = false ∨ stripResolved (binTargetOf v) = []) :
    (Use fs v).ok = true ∧ (Use fs v).fs.binLink = some (binTargetOf v) ∧
    (Use fs v).fs.goLink = some (goJoin [versionsDir, [], str ("go")]) := by
  have hu1 : isUnder currentBinDir currentDir = false := by decide
  have hu2 : isUnder currentGoDir currentDir = false := by decide
  have hu3 : isUnder currentGoDir currentBinDir = false := by decide
  have hcdA : currentDir ∈ (removeAllOp fs currentBinDir).1.dirs :=
    removeAll_dirs_mem.mpr ⟨hcd, hu1⟩
  have h1 : changeSymblinkGoBin fs v =
      ⟨{ (removeAllOp fs currentBinDir).1 with binLink := some (binTargetOf v) },
        (removeAllOp fs currentBinDir).2 ++ [Eff.linked (binTargetOf v) currentBinDir],
        true⟩ := by
    simp only [changeSymblinkGoBin, binTargetOf]
    rw [if_pos hcdA]
  have hbinB : (removeAllOp ({ (removeAllOp fs currentBinDir).1 with
      binLink := some (binTargetOf v) } : FS) currentGoDir).1.binLink
      = some (binTargetOf v) := by
    rw [removeAll_binLink, if_neg (by rw [hu3]; exact Bool.false_ne_true)]
  have hcdB : currentDir ∈ (removeAllOp ({ (removeAllOp fs currentBinDir).1 with
      binLink := some (binTargetOf v) } : FS) currentGoDir).1.dirs := by
    rw [removeAll_dirs_mem]
    exact ⟨removeAll_dirs_mem.mpr ⟨hcd, hu1⟩, hu2⟩
  have hcv : currentVersion (removeAllOp ({ (removeAllOp fs currentBinDir).1 with
      binLink := some (binTargetOf v) } : FS) currentGoDir).1 = [] := by
    cases hpe : pathExistsB (removeAllOp ({ (removeAllOp fs currentBinDir).1 with
        binLink := some (binTargetOf v) } : FS) currentGoDir).1 (binTargetOf v) with
    | false => exact currentVersion_broken hbinB hpe
    | true =>
      rcases hres with hres | hres
      · exfalso
        rcases pathExistsB_iff.mp hpe with hm | hm
        · have h3 := (removeAll_dirs_mem.mp hm).1
          have h4 := (removeAll_dirs_mem.mp h3).1
          rw [pathExistsB_iff.mpr (Or.inl h4)] at hres
          exact Bool.noConfusion hres
        · have h3 := (removeAll_files_mem.mp hm).1
          have h4 : binTargetOf v ∈ fs.files := by
            have h5 : ({ (removeAllOp fs currentBinDir).1 with
                binLink := some (binTargetOf v) } : FS).files
                = (removeAllOp fs currentBinDir).1.files := rfl
            rw [h5] at h3
            exact (removeAll_files_mem.mp h3).1
          rw [pathExistsB_iff.mpr (Or.inr h4)] at hres
          exact Bool.noConfusion hres
      · rw [currentVersion_resolved hbinB hpe, hres]
  have h2 : changeSymblinkGo ({ (removeAllOp fs currentBinDir).1 with
      binLink := some (binTargetOf v) } : FS) v =
      ⟨{ (removeAllOp ({ (removeAllOp fs currentBinDir).1 with
          binLink := some (binTargetOf v) } : FS) currentGoDir).1 with
          goLink := some (goJoin [versionsDir, [], str ("go")]) },
        (removeAllOp ({ (removeAllOp fs currentBinDir).1 with
          binLink := some (binTargetOf v) } : FS) currentGoDir).2 ++
          [Eff.linked (goJoin [versionsDir, [], str ("go")]) currentGoDir],
        true⟩ := by
    simp only [changeSymblinkGo]
    rw [hcv, if_pos hcdB]
  have hUse : Use fs v =
      ⟨{ (removeAllOp ({ (removeAllOp fs currentBinDir).1 with
          binLink := some (binTargetOf v) } : FS) currentGoDir).1 with
          goLink := some (goJoin [versionsDir, [], str ("go")]) },
        ((removeAllOp fs currentBinDir).2 ++ [Eff.linked (binTargetOf v) currentBinDir]) ++
          ((removeAllOp ({ (removeAllOp fs currentBinDir).1 with
            binLink := some (binTargetOf v) } : FS) currentGoDir).2 ++
            [Eff.linked (goJoin [versionsDir, [], str ("go")]) currentGoDir]),
        true⟩ := by
    simp only [Use]
    rw [if_neg hcur, h1]
    dsimp only
    rw [if_pos rfl, h2]
  exact ⟨by rw [hUse], by rw [hUse]; exact hbinB, by rw [hUse]⟩

theorem isUnder_downloads_tarPath {v : Str} (hsl : '/' ∉ v) :
    isUnder downloadsDir (tarPath v) = true := by
  rw [tarPath_eq hsl,
    show downloadsDir ++ '/' :: tarName v = addSlash downloadsDir ++ tarName v from by
      rw [addSlash_of_ne (by decide)]
      simp]
  exact isUnder_extend _ _

theorem existsVersion_mkdirs {fs : FS} {v : Str} (hp : plainSeg v = true)
    (hne : existsVersion fs v = false) : existsVersion (mkdirs fs v).1 v = false := by
  have hv := (plainSeg_parts hp).1
  have hpfg := pfx_versions_goDirOf hp
  cases h : existsVersion (mkdirs fs v).1 v with
  | false => rfl
  | true =>
    exfalso
    rcases existsVersion_iff.mp h with hm | hm
    · rcases mkdirs_dirs_mem.mp hm with e | e | e | e | e | e
      · exact (ne_of_pfx hpfg (by decide)) e
      · exact (ne_of_pfx hpfg (by decide)) e
      · exact (ne_of_pfx hpfg (by decide)) e
      · exact (goDirOf_ne_getVersionDir hv) e
      · exact (ne_of_pfx hpfg (by decide)) e
      · rw [existsVersion_iff.mpr (Or.inl e)] at hne
        exact Bool.noConfusion hne
    · rw [mkdirs_files] at hm
      rw [existsVersion_iff.mpr (Or.inr hm)] at hne
      exact Bool.noConfusion hne

theorem install_extract_eq {fs : FS} {v : Str} (hp : plainSeg v = true)
    (hne : existsVersion fs v = false) :
    Install fs v true true =
      ⟨(removeAllOp ({ ({ (mkdirs fs v).1 with
          files := if tarPath v ∈ (mkdirs fs v).1.files then (mkdirs fs v).1.files
            else tarPath v :: (mkdirs fs v).1.files } : FS) with
          dirs := goDirOf v :: binTargetOf v :: (mkdirs fs v).1.dirs } : FS)
          downloadsDir).1,
        (mkdirs fs v).2 ++ ([Eff.fetched (downloadURL v)] ++ [Eff.extractedTar v]) ++
          (removeAllOp ({ ({ (mkdirs fs v).1 with
            files := if tarPath v ∈ (mkdirs fs v).1.files then (mkdirs fs v).1.files
              else tarPath v :: (mkdirs fs v).1.files } : FS) with
            dirs := goDirOf v :: binTargetOf v :: (mkdirs fs v).1.dirs } : FS)
            downloadsDir).2,
        true⟩ := by
  have hv := (plainSeg_parts hp).1
  have hne2 := existsVersion_mkdirs hp hne
  simp only [Install, downloadAndExtract, downloadTo, extractTar, cleanDownloadsDir,
    goDirOf, binTargetOf, tarPath, downloadURL]
  rw [if_neg hv]
  simp only [hne2, Bool.false_eq_true, if_false, if_true]

theorem install_fresh_facts {fs : FS} {v : Str} (hp : plainSeg v = true)
    (hne : existsVersion fs v = false) :
    (Install fs v true true).ok = true ∧
    (Install fs v true true).fs.binLink = fs.binLink ∧
    (Install fs v true true).fs.goLink = fs.goLink ∧
    goDirOf v ∈ (Install fs v true true).fs.dirs ∧
    binTargetOf v ∈ (Install fs v true true).fs.dirs ∧
    installDir ∈ (Install fs v true true).fs.dirs ∧
    currentDir ∈ (Install fs v true true).fs.dirs ∧
    versionsDir ∈ (Install fs v true true).fs.dirs ∧
    getVersionDir v ∈ (Install fs v true true).fs.dirs ∧
    downloadsDir ∉ (Install fs v true true).fs.dirs ∧
    (∀ q, q ∈ (Install fs v true true).fs.files → q ∈ fs.files) := by
  obtain ⟨hv, hsl, hd1, hd2⟩ := plainSeg_parts hp
  have hpfg := pfx_versions_goDirOf hp
  have hpfb := pfx_versions_binTargetOf hp
  have hpfv := pfx_versions_getVersionDir hp
  have hug : isUnder downloadsDir (goDirOf v) = false :=
    isUnder_false_of_sep (pfx_refl downloadsDir) hpfg (by decide) (by decide)
  have hub : isUnder downloadsDir (binTargetOf v) = false :=
    isUnder_false_of_sep (pfx_refl downloadsDir) hpfb (by decide) (by decide)
  have huv : isUnder downloadsDir (getVersionDir v) = false :=
    isUnder_false_of_sep (pfx_refl downloadsDir) hpfv (by decide) (by decide)
  rw [install_extract_eq hp hne]
  refine ⟨rfl, ?_, ?_, ?_, ?_, ?_, ?_, ?_, ?_, ?_, ?_⟩
  · rw [removeAll_binLink, if_neg (by decide)]
    exact mkdirs_binLink v
  · rw [removeAll_goLink, if_neg (by decide)]
    exact mkdirs_goLink v
  · exact removeAll_dirs_mem.mpr ⟨by simp, hug⟩
  · exact removeAll_dirs_mem.mpr ⟨by simp, hub⟩
  · exact removeAll_dirs_mem.mpr
      ⟨by simp [mkdirs_dirs_mem], by decide⟩
  · exact removeAll_dirs_mem.mpr
      ⟨by simp [mkdirs_dirs_mem], by decide⟩
  · exact removeAll_dirs_mem.mpr
      ⟨by simp [mkdirs_dirs_mem], by decide⟩
  · exact removeAll_dirs_mem.mpr
      ⟨by simp [mkdirs_dirs_mem], huv⟩
  · intro h
    have h2 := (removeAll_dirs_mem.mp h).2
    rw [isUnder_self] at h2
    exact Bool.noConfusion h2
  · intro q hq
    have h2 := removeAll_files_mem.mp hq
    have h3 := h2.1
    by_cases hc : tarPath v ∈ (mkdirs fs v).1.files
    · rw [if_pos hc] at h3
      rw [← @mkdirs_files fs v]
      exact h3
    · rw [if_neg hc] at h3
      rcases List.mem_cons.mp h3 with e | e
      · exfalso
        rw [e, isUnder_downloads_tarPath hsl] at h2
        exact Bool.noConfusion h2.2
      · rw [← @mkdirs_files fs v]
        exact e

/-- C4: uninstall(v) fails fatally on the empty version, on the current
version, and on a version that is not installed, each time leaving the
state untouched with an empty effect trace; otherwise it recursively
deletes exactly the subtree versions/v and afterwards versionExists(v)
is false. -/
theorem c4_uninstall_guards (fs : FS) (v : Str) :
    (v = [] → Uninstall fs v = ⟨fs, [], false⟩) ∧
    (v ≠ [] → currentVersion fs = v → Uninstall fs v = ⟨fs, [], false⟩) ∧
    (v ≠ [] → currentVersion fs ≠ v → existsVersion fs v = false →
      Uninstall fs v = ⟨fs, [], false⟩) ∧
    (v ≠ [] → currentVersion fs ≠ v → existsVersion fs v = true →
      (Uninstall fs v).ok = true ∧
      (Uninstall fs v).effs = [Eff.removedTree (getVersionDir v)] ∧
      existsVersion (Uninstall fs v).fs v = false) := by
  refine ⟨?_, ?_, ?_, ?_⟩
  · intro h
    simp [Uninstall, h]
  · intro h1 h2
    simp [Uninstall, h1, h2]
  · intro h1 h2 h3
    simp [Uninstall, h1, h2, h3]
  · intro h1 h2 h3
    have hU : Uninstall fs v =
        ⟨(removeAllOp fs (getVersionDir v)).1, (removeAllOp fs (getVersionDir v)).2,
          true⟩ := by
      simp [Uninstall, cleanVersionDir, h1, h2, h3]
    have hmem : goDirOf v ∈ fs.dirs ∨ goDirOf v ∈ fs.files := existsVersion_iff.mp h3
    have hu : isUnder (getVersionDir v) (goDirOf v) = true := isUnder_versionDir_goDir h1
    refine ⟨by rw [hU], ?_, ?_⟩
    · rw [hU]
      exact removeAll_effs_of_mem hmem hu
    · rw [hU]
      cases h : existsVersion (removeAllOp fs (getVersionDir v)).1 v with
      | false => rfl
      | true =>
        exfalso
        rcases existsVersion_iff.mp h with hm | hm
        · have h4 := (removeAll_dirs_mem.mp hm).2
          rw [hu] at h4
          exact Bool.noConfusion h4
        · have h4 := (removeAll_files_mem.mp hm).2
          rw [hu] at h4
          exact Bool.noConfusion h4

/-- C4 witness: on the state with 1.17 installed but not current, all three
guard hypotheses are discharged and uninstalling 1.17 succeeds and removes
it. -/
theorem c4_uninstall_guards_witness :
    v117 ≠ [] ∧ currentVersion fsSkel ≠ v117 ∧ existsVersion fsSkel v117 = true ∧
    (Uninstall fsSkel v117).ok = true ∧
    existsVersion (Uninstall fsSkel v117).fs v117 = false :=
  ⟨by decide, by decide, by decide,
    ((c4_uninstall_guards fsSkel v117).2.2.2 (by decide) (by decide) (by decide)).1,
    ((c4_uninstall_guards fsSkel v117).2.2.2 (by decide) (by decide) (by decide)).2.2⟩

/-- C6 counterexample: getVersionDir embeds the version via filepath.Join,
which cleans the path, so a dot-dot version escapes the versions
directory instead of being embedded verbatim. -/
theorem c6_counterexample :
    getVersionDir (str ("..")) = installDir ∧
    getVersionDir (str ("..")) ≠ versionsDir ++ str ("/") ++ str ("..") :=
  ⟨by decide, by decide⟩

/-- C6 amended: getVersionDir is a pure path computation performing no
validation, and for any version that is a single plain path segment the
version is embedded verbatim; versions containing separators or dot
segments are normalized by the Join's Clean step. -/
theorem c6_verbatim_plain (v : Str) (hp : plainSeg v = true) :
    getVersionDir v = versionsDir ++ str ("/") ++ v := by
  rw [getVersionDir_plain hp]
  simp [str]

/-- C6 witness: a realistic version string is embedded verbatim. -/
theorem c6_verbatim_plain_witness :
    plainSeg (str ("1.18beta2")) = true ∧
    getVersionDir (str ("1.18beta2"))
      = versionsDir ++ str ("/") ++ str ("1.18beta2") :=
  ⟨by decide, c6_verbatim_plain _ (by decide)⟩

/-- C7: when the requested version is already current, Use returns
immediately with the state unchanged and an empty effect trace, and the
same holds for a second Use of the same version. -/
theorem c7_use_noop (fs : FS) (v : Str) (h : currentVersion fs = v) :
    Use fs v = ⟨fs, [], true⟩ ∧ Use (Use fs v).fs v = ⟨fs, [], true⟩ := by
  have h1 : Use fs v = ⟨fs, [], true⟩ := by simp [Use, h]
  exact ⟨h1, by rw [h1]; exact h1⟩

/-- C7 witness: with 1.17 active, Use of 1.17 is a pure no-op, twice. -/
theorem c7_use_noop_witness :
    currentVersion fsActive = v117 ∧ Use fsActive v117 = ⟨fsActive, [], true⟩ ∧
    Use (Use fsActive v117).fs v117 = ⟨fsActive, [], true⟩ :=
  ⟨by decide, (c7_use_noop fsActive v117 (by decide)).1,
    (c7_use_noop fsActive v117 (by decide)).2⟩

/-- C8: currentVersion returns the empty string, and cannot fail, whenever
the current/bin link is absent or its target does not exist. -/
theorem c8_currentVersion_empty (fs : FS) :
    (fs.binLink = none → currentVersion fs = []) ∧
    (∀ t, fs.binLink = some t → pathExistsB fs t = false → currentVersion fs = []) :=
  ⟨currentVersion_none, fun _ h he => currentVersion_broken h he⟩

/-- C8 witness: the absent-link case right after an install, and the
broken-link case after switching to a version that is not installed. -/
theorem c8_currentVersion_empty_witness :
    fsSkel.binLink = none ∧ currentVersion fsSkel = [] ∧
    (Use fsSkel (str ("x"))).fs.binLink = some (binTargetOf (str ("x"))) ∧
    pathExistsB (Use fsSkel (str ("x"))).fs (binTargetOf (str ("x"))) = false ∧
    currentVersion (Use fsSkel (str ("x"))).fs = [] :=
  ⟨by decide, (c8_currentVersion_empty fsSkel).1 (by decide), by decide, by decide,
    (c8_currentVersion_empty (Use fsSkel (str ("x"))).fs).2 (binTargetOf (str ("x")))
      (by decide) (by decide)⟩

/-- C10: install and uninstall reject the empty version as fatal with no
mutation, while use accepts it: with no version active use of the empty
string is a silent no-op, and with a version active it repoints both
links at the versions-directory paths obtained by interpolating the
empty version. -/
theorem c10_use_empty (fs : FS) :
    (∀ a b, Install fs [] a b = ⟨fs, [], false⟩) ∧
    Uninstall fs [] = ⟨fs, [], false⟩ ∧
    (currentVersion fs = [] → Use fs [] = ⟨fs, [], true⟩) ∧
    (currentVersion fs ≠ [] → currentDir ∈ fs.dirs →
      (Use fs []).ok = true ∧
      (Use fs []).fs.binLink = some (goJoin [versionsDir, [], str ("/go/bin")]) ∧
      (Use fs []).fs.goLink = some (goJoin [versionsDir, [], str ("go")])) := by
  refine ⟨fun a b => by simp [Install], by simp [Uninstall], fun h => by simp [Use, h], ?_⟩
  intro h1 h2
  have core := @use_resolvesEmpty_core fs [] h1 h2 (Or.inr (by decide))
  exact ⟨core.1, core.2.1, core.2.2⟩

/-- C10 witness: the no-op case on a fresh state and the repointing case
with 1.17 active. -/
theorem c10_use_empty_witness :
    currentVersion initFS = [] ∧ Use initFS [] = ⟨initFS, [], true⟩ ∧
    currentVersion fsActive ≠ [] ∧ currentDir ∈ fsActive.dirs ∧
    (Use fsActive []).ok = true ∧
    (Use fsActive []).fs.binLink = some (goJoin [versionsDir, [], str ("/go/bin")]) ∧
    (Use fsActive []).fs.goLink = some (goJoin [versionsDir, [], str ("go")]) :=
  ⟨by decide, (c10_use_empty initFS).2.2.1 (by decide), by decide, by decide,
    ((c10_use_empty fsActive).2.2.2 (by decide) (by decide)).1,
    ((c10_use_empty fsActive).2.2.2 (by decide) (by decide)).2.1,
    ((c10_use_empty fsActive).2.2.2 (by decide) (by decide)).2.2⟩

/-- C9 counterexample: switching to an uninstalled version x succeeds and
recreates both links, but current/go is pointed at versions/go, not at
the versions/x/go path the claim asserts. -/
theorem c9_counterexample :
    currentVersion fsSkel ≠ str ("x") ∧ existsVersion fsSkel (str ("x")) = false ∧
    (Use fsSkel (str ("x"))).ok = true ∧
    (Use fsSkel (str ("x"))).fs.binLink = some (binTargetOf (str ("x"))) ∧
    (Use fsSkel (str ("x"))).fs.goLink = some (str ("/home/user/.gobrew/versions/go")) ∧
    (Use fsSkel (str ("x"))).fs.goLink ≠ some (goJoin [versionsDir, str ("x"), str ("go")]) :=
  ⟨by decide, by decide, by decide, by decide, by decide, by decide⟩

/-- C9 amended: use(v) indeed never checks that v is installed and reports
success, recreating both links; current/bin is pointed at the dangling
versions/v/go/bin path, but current/go is pointed at versions/go (the
empty re-resolved version), not into versions/v. -/
theorem c9_use_uninstalled_amended (fs : FS) (v : Str) (hp : plainSeg v = true)
    (hcur : currentVersion fs ≠ v) (hcd : currentDir ∈ fs.dirs)
    (hnores : pathExistsB fs (binTargetOf v) = false) :
    (Use fs v).ok = true ∧
    (Use fs v).fs.binLink = some (binTargetOf v) ∧
    (Use fs v).fs.goLink = some (goJoin [versionsDir, [], str ("go")]) ∧
    (Use fs v).fs.goLink ≠ some (goDirOf v) := by
  have hv := (plainSeg_parts hp).1
  have core := use_resolvesEmpty_core hcur hcd (Or.inl hnores)
  refine ⟨core.1, core.2.1, core.2.2, ?_⟩
  rw [core.2.2]
  intro e
  have e2 : goJoin [versionsDir, [], str ("go")] = goDirOf v := by
    injection e
  have hlen := congrArg List.length e2
  rw [show (goJoin [versionsDir, [], str ("go")]).length = 30 from by decide,
    goDirOf_eq hv, addSlash_of_ne (ne_slash_of_len (by
      rw [getVersionDir_plain hp]
      have h27 : versionsDir.length = 27 := by decide
      simp only [List.length_append, List.length_cons]
      omega)), getVersionDir_plain hp] at hlen
  have hvp : 1 ≤ v.length := List.length_pos.mpr hv
  simp only [List.length_append, List.length_cons, List.length_nil,
    show versionsDir.length = 27 from by decide,
    show (str ("go")).length = 2 from by decide] at hlen
  omega

/-- C9 witness: with the skeleton in place, switching to the uninstalled
version x exhibits the amended behavior. -/
theorem c9_use_uninstalled_amended_witness :
    plainSeg (str ("x")) = true ∧ currentVersion fsSkel ≠ str ("x") ∧
    currentDir ∈ fsSkel.dirs ∧ pathExistsB fsSkel (binTargetOf (str ("x"))) = false ∧
    (Use fsSkel (str ("x"))).ok = true ∧
    (Use fsSkel (str ("x"))).fs.goLink = some (goJoin [versionsDir, [], str ("go")]) :=
  ⟨by decide, by decide, by decide, by decide,
    (c9_use_uninstalled_amended fsSkel (str ("x")) (by decide) (by decide) (by decide)
      (by decide)).1,
    (c9_use_uninstalled_amended fsSkel (str ("x")) (by decide) (by decide) (by decide)
      (by decide)).2.2.1⟩

/-- C3 counterexample: a successful use of an uninstalled version x leaves
the bin link pointing into versions/x while re-resolution yields the
empty version and the go link points at versions/go: the two links do
not designate the same version directory. -/
theorem c3_counterexample :
    (Use fsSkel (str ("x"))).ok = true ∧
    (Use fsSkel (str ("x"))).fs.binLink = some (binTargetOf (str ("x"))) ∧
    currentVersion (Use fsSkel (str ("x"))).fs ≠ str ("x") ∧
    (Use fsSkel (str ("x"))).fs.goLink ≠ some (goDirOf (str ("x"))) :=
  ⟨by decide, by decide, by decide, by decide⟩

/-- C3 amended: after a successful switching use(v) where v is installed
with its go/bin tree resolvable, v is a plain segment, and the resolver's
stripping recovers v, both links point into the same version directory
versions/v and the re-resolution performed after the bin swap yields
exactly v. -/
theorem c3_use_same_version_amended (fs : FS) (v : Str) (hp : plainSeg v = true)
    (hstrip : stripResolved (binTargetOf v) = v) (hcur : currentVersion fs ≠ v)
    (hcd : currentDir ∈ fs.dirs) (hbin : binTargetOf v ∈ fs.dirs) :
    (Use fs v).ok = true ∧
    (Use fs v).fs.binLink = some (addSlash (getVersionDir v) ++ str ("go/bin")) ∧
    (Use fs v).fs.goLink = some (addSlash (getVersionDir v) ++ str ("go")) ∧
    currentVersion (Use fs v).fs = v := by
  have hv := (plainSeg_parts hp).1
  have core := use_switch_core hp hstrip hcur hcd hbin
  refine ⟨core.1, ?_, ?_, core.2.2.2.1⟩
  · rw [core.2.1, binTargetOf_expand hv]
  · rw [core.2.2.1, goDirOf_eq hv]

/-- C3 witness: switching to the installed 1.17 from the skeleton state. -/
theorem c3_use_same_version_amended_witness :
    plainSeg v117 = true ∧ stripResolved (binTargetOf v117) = v117 ∧
    currentVersion fsSkel ≠ v117 ∧ currentDir ∈ fsSkel.dirs ∧
    binTargetOf v117 ∈ fsSkel.dirs ∧
    (Use fsSkel v117).ok = true ∧ currentVersion (Use fsSkel v117).fs = v117 :=
  ⟨by decide, by decide, by decide, by decide, by decide,
    (c3_use_same_version_amended fsSkel v117 (by decide) (by decide) (by decide)
      (by decide) (by decide)).1,
    (c3_use_same_version_amended fsSkel v117 (by decide) (by decide) (by decide)
      (by decide) (by decide)).2.2.2⟩

/-- C2 counterexample: for a version containing a slash, install and use
both succeed but currentVersion returns the version with the slashes
stripped, not the version itself. -/
theorem c2_counterexample :
    (Install initFS (str ("a/b")) true true).ok = true ∧
    (Use (Install initFS (str ("a/b")) true true).fs (str ("a/b"))).ok = true ∧
    currentVersion (Use (Install initFS (str ("a/b")) true true).fs (str ("a/b"))).fs
      = str ("ab") ∧
    currentVersion (Use (Install initFS (str ("a/b")) true true).fs (str ("a/b"))).fs
      ≠ str ("a/b") :=
  ⟨by decide, by decide, by decide, by decide⟩

set_option maxHeartbeats 1000000 in
/-- C2 amended: for a plain-segment version recovered exactly by the
resolver's stripping, starting from a state with no bin link, a
successful install followed by use makes currentVersion return exactly v
and leaves both links pointing at existing paths inside versions/v. -/
theorem c2_install_use_amended (fs : FS) (v : Str) (hp : plainSeg v = true)
    (hstrip : stripResolved (binTargetOf v) = v) (hnolink : fs.binLink = none)
    (hpre : existsVersion fs v = true → binTargetOf v ∈ fs.dirs ∧ goDirOf v ∈ fs.dirs) :
    (Install fs v true true).ok = true ∧
    (Use (Install fs v true true).fs v).ok = true ∧
    currentVersion (Use (Install fs v true true).fs v).fs = v ∧
    (Use (Install fs v true true).fs v).fs.binLink
      = some (addSlash (getVersionDir v) ++ str ("go/bin")) ∧
    (Use (Install fs v true true).fs v).fs.goLink
      = some (addSlash (getVersionDir v) ++ str ("go")) ∧
    binTargetOf v ∈ (Use (Install fs v true true).fs v).fs.dirs ∧
    goDirOf v ∈ (Use (Install fs v true true).fs v).fs.dirs := by
  have hv := (plainSeg_parts hp).1
  have hb1 := isUnder_binDir_binTarget hp
  have hb2 := isUnder_goDir_binTarget hp
  have hg1 := isUnder_binDir_goDir hp
  have hg2 := isUnder_goDir_goDir hp
  cases hex : existsVersion fs v with
  | false =>
    obtain ⟨hok, hbl, _, hgd, hbt, _, hcdm, _, _, _, _⟩ := install_fresh_facts hp hex
    have hcur : currentVersion (Install fs v true true).fs ≠ v := by
      rw [currentVersion_none (by rw [hbl, hnolink])]
      exact fun e => hv e.symm
    have core := use_switch_core hp hstrip hcur hcdm hbt
    refine ⟨hok, core.1, core.2.2.2.1, ?_, ?_, ?_, ?_⟩
    · rw [core.2.1, binTargetOf_expand hv]
    · rw [core.2.2.1, goDirOf_eq hv]
    · exact (core.2.2.2.2 _).mpr ⟨hbt, hb1, hb2⟩
    · exact (core.2.2.2.2 _).mpr ⟨hgd, hg1, hg2⟩
  | true =>
    obtain ⟨hbfs, hgfs⟩ := hpre hex
    have hfx : existsVersion (mkdirs fs v).1 v = true :=
      existsVersion_iff.mpr (Or.inl (mkdirs_dirs_mem.mpr
        (Or.inr (Or.inr (Or.inr (Or.inr (Or.inr hgfs)))))))
    have hr1 : Install fs v true true = ⟨(mkdirs fs v).1, (mkdirs fs v).2, true⟩ := by
      simp only [Install]
      rw [if_neg hv]
      simp only [hfx, if_true]
    have hcur : currentVersion (Install fs v true true).fs ≠ v := by
      rw [hr1]
      have hn : ((⟨(mkdirs fs v).1, (mkdirs fs v).2, true⟩ : Res).fs).binLink = none := by
        show (mkdirs fs v).1.binLink = none
        rw [mkdirs_binLink, hnolink]
      rw [currentVersion_none hn]
      exact fun e => hv e.symm
    have hcdm : currentDir ∈ (Install fs v true true).fs.dirs := by
      rw [hr1]
      exact mkdirs_dirs_mem.mpr (Or.inr (Or.inl rfl))
    have hbt : binTargetOf v ∈ (Install fs v true true).fs.dirs := by
      rw [hr1]
      exact mkdirs_dirs_mem.mpr (Or.inr (Or.inr (Or.inr (Or.inr (Or.inr hbfs)))))
    have hgd : goDirOf v ∈ (Install fs v true true).fs.dirs := by
      rw [hr1]
      exact mkdirs_dirs_mem.mpr (Or.inr (Or.inr (Or.inr (Or.inr (Or.inr hgfs)))))
    have core := use_switch_core hp hstrip hcur hcdm hbt
    refine ⟨by rw [hr1], core.1, core.2.2.2.1, ?_, ?_, ?_, ?_⟩
    · rw [core.2.1, binTargetOf_expand hv]
    · rw [core.2.2.1, goDirOf_eq hv]
    · exact (core.2.2.2.2 _).mpr ⟨hbt, hb1, hb2⟩
    · exact (core.2.2.2.2 _).mpr ⟨hgd, hg1, hg2⟩

/-- C2 witness: installing and using 1.17 on a fresh filesystem. -/
theorem c2_install_use_amended_witness :
    plainSeg v117 = true ∧ stripResolved (binTargetOf v117) = v117 ∧
    initFS.binLink = none ∧
    (Install initFS v117 true true).ok = true ∧
    (Use (Install initFS v117 true true).fs v117).ok = true ∧
    currentVersion (Use (Install initFS v117 true true).fs v117).fs = v117 :=
  ⟨by decide, by decide, by decide,
    (c2_install_use_amended initFS v117 (by decide) (by decide) (by decide)
      (by decide)).1,
    (c2_install_use_amended initFS v117 (by decide) (by decide) (by decide)
      (by decide)).2.1,
    (c2_install_use_amended initFS v117 (by decide) (by decide) (by decide)
      (by decide)).2.2.1⟩

theorem install_noop_eq {gs : FS} {v : Str} (hv : v ≠ [])
    (hid : installDir ∈ gs.dirs) (hcd : currentDir ∈ gs.dirs)
    (hvd : versionsDir ∈ gs.dirs) (hgv : getVersionDir v ∈ gs.dirs)
    (hdd : downloadsDir ∉ gs.dirs) (hgd : goDirOf v ∈ gs.dirs) (c d : Bool) :
    Install gs v c d = ⟨{ gs with dirs := downloadsDir :: gs.dirs },
      [Eff.mkdir downloadsDir], true⟩ := by
  have e1 := mkdirAll_of_mem hid
  have e2 := mkdirAll_of_mem hcd
  have e3 := mkdirAll_of_mem hvd
  have e4 := mkdirAll_of_mem hgv
  have e5 := mkdirAll_of_not_mem hdd
  have hmk : mkdirs gs v =
      ({ gs with dirs := downloadsDir :: gs.dirs }, [Eff.mkdir downloadsDir]) := by
    unfold mkdirs
    rw [e1]
    dsimp only
    rw [e2]
    dsimp only
    rw [e3]
    dsimp only
    rw [e4]
    dsimp only
    rw [e5]
    simp
  have hex2 : existsVersion (mkdirs gs v).1 v = true := by
    rw [hmk]
    exact existsVersion_iff.mpr (Or.inl (List.mem_cons_of_mem _ hgd))
  simp only [Install]
  rw [if_neg hv]
  simp only [hex2, if_true]
  rw [hmk]

/-- C5 counterexample: running install(1.17) a second time does not leave
the on-disk state identical to a single install: the second run recreates
the empty downloads directory that the first run's cleanup removed. -/
theorem c5_counterexample :
    (Install fsSkel v117 true true).ok = true ∧
    sameStateB (Install fsSkel v117 true true).fs fsSkel = false ∧
    downloadsDir ∈ (Install fsSkel v117 true true).fs.dirs ∧
    downloadsDir ∉ fsSkel.dirs :=
  ⟨by decide, by decide, by decide, by decide⟩

/-- C5 amended: the second install performs no fetch and no extraction
(its only effect is recreating the downloads directory after observing
that the version exists), and the resulting state is the first install's
state plus the empty downloads directory. -/
theorem c5_idempotent_amended (fs : FS) (v : Str) (hp : plainSeg v = true)
    (hne : existsVersion fs v = false) (c d : Bool) :
    (Install fs v true true).ok = true ∧
    (Install (Install fs v true true).fs v c d).ok = true ∧
    (Install (Install fs v true true).fs v c d).effs = [Eff.mkdir downloadsDir] ∧
    (Install (Install fs v true true).fs v c d).fs.dirs
      = downloadsDir :: (Install fs v true true).fs.dirs ∧
    (Install (Install fs v true true).fs v c d).fs.files
      = (Install fs v true true).fs.files ∧
    (Install (Install fs v true true).fs v c d).fs.binLink
      = (Install fs v true true).fs.binLink ∧
    (Install (Install fs v true true).fs v c d).fs.goLink
      = (Install fs v true true).fs.goLink := by
  have hv := (plainSeg_parts hp).1
  obtain ⟨hok, _, _, hgd, _, hid, hcdm, hvd, hgv, hdd, _⟩ := install_fresh_facts hp hne
  have hr2 := install_noop_eq hv hid hcdm hvd hgv hdd hgd c d
  exact ⟨hok, by rw [hr2], by rw [hr2], by rw [hr2], by rw [hr2], by rw [hr2],
    by rw [hr2]⟩

/-- C5 witness: installing 1.17 twice from a fresh filesystem. -/
theorem c5_idempotent_amended_witness :
    plainSeg v117 = true ∧ existsVersion initFS v117 = false ∧
    (Install (Install initFS v117 true true).fs v117 true true).ok = true ∧
    (Install (Install initFS v117 true true).fs v117 true true).effs
      = [Eff.mkdir downloadsDir] :=
  ⟨by decide, by decide,
    (c5_idempotent_amended initFS v117 (by decide) (by decide) true true).2.1,
    (c5_idempotent_amended initFS v117 (by decide) (by decide) true true).2.2.1⟩

theorem install_fetchfail_eq {fs : FS} {v : Str} (hv : v ≠ [])
    (hne2 : existsVersion (mkdirs fs v).1 v = false) (b : Bool) :
    Install fs v false b =
      ⟨(removeAllOp (mkdirs fs v).1 (getVersionDir v)).1,
        (mkdirs fs v).2 ++ ([Eff.fetched (downloadURL v)] ++
          (removeAllOp (mkdirs fs v).1 (getVersionDir v)).2),
        false⟩ := by
  simp only [Install]
  rw [if_neg hv, if_neg (by rw [hne2]; exact Bool.false_ne_true)]
  rfl

theorem install_extractfail_eq {fs : FS} {v : Str} (hv : v ≠ [])
    (hne2 : existsVersion (mkdirs fs v).1 v = false) :
    Install fs v true false =
      ⟨(removeAllOp ({ (mkdirs fs v).1 with
          files := if tarPath v ∈ (mkdirs fs v).1.files then (mkdirs fs v).1.files
            else tarPath v :: (mkdirs fs v).1.files } : FS) (getVersionDir v)).1,
        (mkdirs fs v).2 ++ (([Eff.fetched (downloadURL v)] ++ [Eff.extractedTar v]) ++
          (removeAllOp ({ (mkdirs fs v).1 with
            files := if tarPath v ∈ (mkdirs fs v).1.files then (mkdirs fs v).1.files
              else tarPath v :: (mkdirs fs v).1.files } : FS) (getVersionDir v)).2),
        false⟩ := by
  simp only [Install]
  rw [if_neg hv, if_neg (by rw [hne2]; exact Bool.false_ne_true)]
  rfl

/-- C1 counterexample: when extraction fails, the version directory is
rolled back but the downloaded artifact does remain under downloads/,
because the downloads cleanup runs only on the success path while the
failure path terminates the process. -/
theorem c1_counterexample :
    (Install initFS v117 true false).ok = false ∧
    existsVersion (Install initFS v117 true false).fs v117 = false ∧
    tarPath v117 ∈ (Install initFS v117 true false).fs.files :=
  ⟨by decide, by decide, by decide⟩

set_option maxHeartbeats 1000000 in
theorem c1_fetchfail_part {fs : FS} {v : Str} (hp : plainSeg v = true)
    (hne : existsVersion fs v = false) (b : Bool) :
    (Install fs v false b).ok = false ∧
    existsVersion (Install fs v false b).fs v = false ∧
    (∀ q, q ∈ (Install fs v false b).fs.files → q ∈ fs.files) := by
  obtain ⟨hv, hsl, _, _⟩ := plainSeg_parts hp
  have hne2 := existsVersion_mkdirs hp hne
  have hnd : goDirOf v ∉ (mkdirs fs v).1.dirs := fun hm => by
    rw [existsVersion_iff.mpr (Or.inl hm)] at hne2
    exact Bool.noConfusion hne2
  have hnf : goDirOf v ∉ (mkdirs fs v).1.files := fun hm => by
    rw [existsVersion_iff.mpr (Or.inr hm)] at hne2
    exact Bool.noConfusion hne2
  have hFF := install_fetchfail_eq hv hne2 b
  refine ⟨by rw [hFF], ?_, ?_⟩
  · rw [hFF]
    cases h : existsVersion (removeAllOp (mkdirs fs v).1 (getVersionDir v)).1 v with
    | false => rfl
    | true =>
      exfalso
      rcases existsVersion_iff.mp h with hm | hm
      · exact hnd (removeAll_dirs_mem.mp hm).1
      · exact hnf (removeAll_files_mem.mp hm).1
  · intro q hq
    rw [hFF] at hq
    have h2 := (removeAll_files_mem.mp hq).1
    rw [mkdirs_files] at h2
    exact h2

set_option maxHeartbeats 2000000 in
theorem c1_extractfail_part {fs : FS} {v : Str} (hp : plainSeg v = true)
    (hne : existsVersion fs v = false) :
    (Install fs v true false).ok = false ∧
    existsVersion (Install fs v true false).fs v = false ∧
    tarPath v ∈ (Install fs v true false).fs.files ∧
    downloadsDir ∈ (Install fs v true false).fs.dirs := by
  obtain ⟨hv, hsl, _, _⟩ := plainSeg_parts hp
  have hne2 := existsVersion_mkdirs hp hne
  have hnd : goDirOf v ∉ (mkdirs fs v).1.dirs := fun hm => by
    rw [existsVersion_iff.mpr (Or.inl hm)] at hne2
    exact Bool.noConfusion hne2
  have hnf : goDirOf v ∉ (mkdirs fs v).1.files := fun hm => by
    rw [existsVersion_iff.mpr (Or.inr hm)] at hne2
    exact Bool.noConfusion hne2
  have hEF := install_extractfail_eq hv hne2
  have hfile : tarPath v ∈ ({ (mkdirs fs v).1 with
      files := if tarPath v ∈ (mkdirs fs v).1.files then (mkdirs fs v).1.files
        else tarPath v :: (mkdirs fs v).1.files } : FS).files := by
    by_cases hc : tarPath v ∈ (mkdirs fs v).1.files
    · show tarPath v ∈ (if tarPath v ∈ (mkdirs fs v).1.files then (mkdirs fs v).1.files
        else tarPath v :: (mkdirs fs v).1.files)
      rw [if_pos hc]
      exact hc
    · show tarPath v ∈ (if tarPath v ∈ (mkdirs fs v).1.files then (mkdirs fs v).1.files
        else tarPath v :: (mkdirs fs v).1.files)
      rw [if_neg hc]
      exact List.mem_cons_self _ _
  have hut : isUnder (getVersionDir v) (tarPath v) = false :=
    isUnder_false_of_sep (pfx_versions_getVersionDir hp) (pfx_downloads_tarPath hsl)
      (by decide) (by decide)
  have hud : isUnder (getVersionDir v) downloadsDir = false :=
    isUnder_false_of_sep (pfx_versions_getVersionDir hp) (pfx_refl downloadsDir)
      (by decide) (by decide)
  refine ⟨by rw [hEF], ?_, ?_, ?_⟩
  · rw [hEF]
    cases h : existsVersion (removeAllOp ({ (mkdirs fs v).1 with
        files := if tarPath v ∈ (mkdirs fs v).1.files then (mkdirs fs v).1.files
          else tarPath v :: (mkdirs fs v).1.files } : FS) (getVersionDir v)).1 v with
    | false => rfl
    | true =>
      exfalso
      rcases existsVersion_iff.mp h with hm | hm
      · exact hnd (removeAll_dirs_mem.mp hm).1
      · have h3 := (removeAll_files_mem.mp hm).1
        by_cases hc : tarPath v ∈ (mkdirs fs v).1.files
        · rw [show ({ (mkdirs fs v).1 with
              files := if tarPath v ∈ (mkdirs fs v).1.files then (mkdirs fs v).1.files
                else tarPath v :: (mkdirs fs v).1.files } : FS).files
              = (mkdirs fs v).1.files from by rw [if_pos hc]] at h3
          exact hnf h3
        · rw [show ({ (mkdirs fs v).1 with
              files := if tarPath v ∈ (mkdirs fs v).1.files then (mkdirs fs v).1.files
                else tarPath v :: (mkdirs fs v).1.files } : FS).files
              = tarPath v :: (mkdirs fs v).1.files from by rw [if_neg hc]] at h3
          rcases List.mem_cons.mp h3 with e | e
          · exact (ne_of_pfx (pfx_versions_goDirOf hp) (not_pfx_versions_tarPath hsl)) e
          · exact hnf e
  · rw [hEF]
    exact removeAll_files_mem.mpr ⟨hfile, hut⟩
  · rw [hEF]
    refine removeAll_dirs_mem.mpr ⟨?_, hud⟩
    show downloadsDir ∈ (mkdirs fs v).1.dirs
    exact mkdirs_dirs_mem.mpr (Or.inr (Or.inr (Or.inr (Or.inr (Or.inl rfl)))))

/-- C1 amended: for a plain-segment version that is not installed, a fetch
failure rolls back the version directory and creates no artifact, and an
extraction failure rolls back the version directory but leaves the
downloaded artifact in the surviving downloads directory. -/
theorem c1_rollback_amended (fs : FS) (v : Str) (hp : plainSeg v = true)
    (hne : existsVersion fs v = false) (b : Bool) :
    ((Install fs v false b).ok = false ∧
      existsVersion (Install fs v false b).fs v = false ∧
      (∀ q, q ∈ (Install fs v false b).fs.files → q ∈ fs.files)) ∧
    ((Install fs v true false).ok = false ∧
      existsVersion (Install fs v true false).fs v = false ∧
      tarPath v ∈ (Install fs v true false).fs.files ∧
      downloadsDir ∈ (Install fs v true false).fs.dirs) :=
  ⟨c1_fetchfail_part hp hne b, c1_extractfail_part hp hne⟩

/-- C1 witness: both failure modes for 1.17 on a fresh filesystem. -/
theorem c1_rollback_amended_witness :
    plainSeg v117 = true ∧ existsVersion initFS v117 = false ∧
    existsVersion (Install initFS v117 false false).fs v117 = false ∧
    existsVersion (Install initFS v117 true false).fs v117 = false ∧
    tarPath v117 ∈ (Install initFS v117 true false).fs.files :=
  ⟨by decide, by decide,
    (c1_rollback_amended initFS v117 (by decide) (by decide) false).1.2.1,
    (c1_rollback_amended initFS v117 (by decide) (by decide) false).2.2.1,
    (c1_rollback_amended initFS v117 (by decide) (by decide) false).2.2.2.1⟩

end Gobrew
